import Mathlib

/-!
Verification of the SkillMatch AI candidate-screening application
(`src/main.py`): validators, duplicate checker, question/feedback
generation plumbing, scorer, and the wizard state machine.

Python strings are modelled as Lean `String`/`List Char`; Python floats as
exact rationals (`ℚ`); the MongoDB collection as a `List CandidateRecord`;
the Gemini completion service as an explicit input describing its outcome.
-/

namespace SkillMatch

/-! ## Python `str.strip()` -/

/-- The whitespace characters removed by Python's `str.strip()`
(ASCII whitespace plus the common extra control/space characters;
further Unicode space characters are outside the modelled range). -/
def pyWS : List Char := [' ', '\t', '\n', '\r', '\x0b', '\x0c', '\x1c', '\x1d', '\x1e', '\x1f', '\x85', '\xa0']

def isPyWS (c : Char) : Bool := pyWS.contains c

/-- Strip leading and trailing whitespace from a character list. -/
def trimList (cs : List Char) : List Char :=
  ((cs.dropWhile isPyWS).reverse.dropWhile isPyWS).reverse

/-- Model of Python `s.strip()`. -/
def pyStrip (s : String) : String := String.mk (trimList s.data)

/-! ## A matcher for the linear fragment of Python/PCRE regular expressions

Every pattern occurring in `src/main.py` is a plain sequence of character
classes with counted repetition (no alternation or grouping), so regexes are
embedded as lists of `RItem` (a character class plus repetition bounds).
Matching is parametrised by the class-membership function so that the
case-sensitive (`re.match`) and case-insensitive (MongoDB `$options: "i"`)
variants share one matcher. -/

/-- A regex character class: a negation flag, a list of single characters and
a list of inclusive character ranges. `[^@]` is `⟨true, [@], []⟩`;
`.` (any char except newline) is `⟨true, [newline], []⟩`. -/
structure CClass where
  neg : Bool
  chars : List Char
  ranges : List (Char × Char)
  deriving DecidableEq, Repr

/-- Case-sensitive class membership. -/
def ccMem (cc : CClass) (c : Char) : Bool :=
  let inside := cc.chars.contains c || cc.ranges.any (fun p => p.1 ≤ c && c ≤ p.2)
  if cc.neg then !inside else inside

/-- The case partner of a character (ASCII letters only, as in
`Char.toLower`/`Char.toUpper`). -/
def flipCase (c : Char) : Char :=
  if c.isUpper then c.toLower else if c.isLower then c.toUpper else c

/-- Case-insensitive class membership (PCRE caseless matching: a character
matches when it or its case partner does; single class characters are
compared by case folding). -/
def ccMemCI (cc : CClass) (c : Char) : Bool :=
  let inside := cc.chars.any (fun d => d.toLower == c.toLower)
    || cc.ranges.any (fun p => (p.1 ≤ c && c ≤ p.2) || (p.1 ≤ flipCase c && flipCase c ≤ p.2))
  if cc.neg then !inside else inside

/-- One element of a linear regex: a class repeated between `lo` and `hi`
times (`hi = none` means unbounded). -/
structure RItem where
  cls : CClass
  lo : Nat
  hi : Option Nat
  deriving DecidableEq, Repr

def hiOk (hi : Option Nat) (n : Nat) : Bool :=
  match hi with
  | none => true
  | some h => n ≤ h

/-- Full-string matching of a linear regex, parametrised by the
class-membership function `mem`. -/
def matchItems (mem : CClass → Char → Bool) : List RItem → List Char → Bool
  | [], cs => cs.isEmpty
  | it :: its, cs =>
      (List.range (cs.length + 1)).any fun n =>
        decide (it.lo ≤ n) && hiOk it.hi n && (cs.take n).all (mem it.cls)
          && matchItems mem its (cs.drop n)

/-- Declarative semantics of `matchItems`: the string splits into one block
per item, each block in the item's class and within its repetition bounds. -/
inductive ItemsMatch (mem : CClass → Char → Bool) : List RItem → List Char → Prop
  | nil : ItemsMatch mem [] []
  | cons (it : RItem) (its : List RItem) (b rest : List Char) :
      it.lo ≤ b.length → hiOk it.hi b.length = true → b.all (mem it.cls) = true →
      ItemsMatch mem its rest → ItemsMatch mem (it :: its) (b ++ rest)

/-- Matching at the start of the string (Python `re.match` without a final
anchor): some prefix matches fully. -/
def matchAtStart (mem : CClass → Char → Bool) (its : List RItem) (cs : List Char) : Bool :=
  (List.range (cs.length + 1)).any fun n => matchItems mem its (cs.take n)

/-- The class `[^@]`. -/
def notAtCC : CClass := ⟨true, ['@'], []⟩

/-- The class of a single literal character. -/
def litCC (c : Char) : CClass := ⟨false, [c], []⟩

/-- The class `[A-Za-z ]`. -/
def alphaSpaceCC : CClass := ⟨false, [' '], [('A', 'Z'), ('a', 'z')]⟩

/-- The class `\d` (modelled as the ASCII digits `[0-9]`; Python's `re`
additionally accepts non-ASCII Unicode digits, which are outside the
modelled range). -/
def digitCC : CClass := ⟨false, [], [('0', '9')]⟩

/-- The class `[1-9]`. -/
def nonzeroDigitCC : CClass := ⟨false, [], [('1', '9')]⟩

/-- The pattern `.` (any character but newline). -/
def dotCC : CClass := ⟨true, ['\n'], []⟩

/-- An item matching a single literal character exactly once. -/
def litItem (c : Char) : RItem := ⟨litCC c, 1, some 1⟩

/-- The regex `^[A-Za-z ]{2,50}$` of `is_valid_name`. -/
def nameItems : List RItem := [⟨alphaSpaceCC, 2, some 50⟩]

/-- The regex `[^@]+@[^@]+\.[^@]+` of `is_valid_email`. -/
def emailItems : List RItem :=
  [⟨notAtCC, 1, none⟩, litItem '@', ⟨notAtCC, 1, none⟩, litItem '.', ⟨notAtCC, 1, none⟩]

/-- The regex `^\+?[1-9]\d{1,14}$` of `is_valid_phone`. -/
def phoneItems : List RItem :=
  [⟨litCC '+', 0, some 1⟩, ⟨nonzeroDigitCC, 1, some 1⟩, ⟨digitCC, 1, some 14⟩]

/-- `is_valid_name` (line 27): `re.match(r"^[A-Za-z ]{2,50}$", name.strip())`.
The pattern is anchored on both sides, so it is a full match of the
stripped input. -/
def is_valid_name (name : String) : Bool :=
  matchItems ccMem nameItems (pyStrip name).data

/-- `is_valid_email` (line 30): `re.match(r"[^@]+@[^@]+\.[^@]+", email.strip())`.
`re.match` only anchors at the start, so a match of any prefix suffices. -/
def is_valid_email (email : String) : Bool :=
  matchAtStart ccMem emailItems (pyStrip email).data

/-- `is_valid_phone` (line 33): `re.match(r"^\+?[1-9]\d{1,14}$", phone.strip())`.
Anchored on both sides (the stripped input cannot end in a newline, so the
`$` anchor means end of string). -/
def is_valid_phone (phone : String) : Bool :=
  matchItems ccMem phoneItems (pyStrip phone).data

/-! ## Interpreting a runtime string as a PCRE pattern

`user_already_exists` (line 43) interpolates the raw email into a MongoDB
`$regex` pattern (the f-string producing an anchored, case-insensitive
pattern from the email), so the email text is interpreted as a regular
expression, not as a literal string.  The linear fragment of PCRE is parsed
here: literal characters, `.`, escapes, character classes and the
quantifiers `? * + ` and counted repetition.  Alternation, grouping,
mid-pattern anchors and other advanced constructs are outside the modelled
fragment and make the parse (and hence the modelled match) fail. -/

/-- The characters with special meaning in a PCRE pattern. -/
def pcreMeta : List Char := ['\\', '^', '$', '.', '|', '?', '*', '+', '(', ')', '[', ']', '{', '}']

/-- A string whose characters are all literal in a PCRE pattern. -/
def metaFree (s : String) : Bool := s.data.all (fun c => !pcreMeta.contains c)

def digitsVal (ds : List Char) : Nat :=
  ds.foldl (fun a c => a * 10 + (c.toNat - 48)) 0

/-- Parse the inside of a counted repetition after the opening brace:
digits, optionally a comma and more digits, then the closing brace. -/
def parseBrace (cs : List Char) : Option (Nat × Option Nat × List Char) :=
  let sp := cs.span (·.isDigit)
  if sp.1 = [] then none
  else
    match sp.2 with
    | '}' :: r2 => some (digitsVal sp.1, some (digitsVal sp.1), r2)
    | ',' :: r3 =>
        let sp2 := r3.span (·.isDigit)
        (match sp2.2 with
         | '}' :: r4 =>
             some (digitsVal sp.1,
               if sp2.1 = [] then none else some (digitsVal sp2.1), r4)
         | _ => none)
    | _ => none

/-- Parse an optional quantifier suffix; defaults to exactly one. -/
def parseQuant (cs : List Char) : Option (Nat × Option Nat × List Char) :=
  match cs with
  | [] => some (1, some 1, [])
  | c :: rest =>
    if c = '?' then some (0, some 1, rest)
    else if c = '*' then some (0, none, rest)
    else if c = '+' then some (1, none, rest)
    else if c = '{' then parseBrace rest
    else some (1, some 1, c :: rest)

/-- Parse the body of a character class (after `[` and the optional `^`),
accumulating single characters and ranges until the closing bracket. -/
def parseClassAux (neg : Bool) : List Char → List Char → List (Char × Char) →
    Option (CClass × List Char)
  | ']' :: rest, chars, ranges => some (⟨neg, chars, ranges⟩, rest)
  | a :: '-' :: b :: rest, chars, ranges =>
      if a = '\\' ∨ b = ']' ∨ b = '\\' then none
      else parseClassAux neg rest chars ((a, b) :: ranges)
  | a :: rest, chars, ranges =>
      if a = '\\' then none else parseClassAux neg rest (a :: chars) ranges
  | [], _, _ => none

/-- Parse one atom of the pattern: `.`, an escape, a class or a literal. -/
def parseAtom (cs : List Char) : Option (CClass × List Char) :=
  match cs with
  | [] => none
  | c :: rest =>
    if c = '.' then some (dotCC, rest)
    else if c = '\\' then
      (match rest with
       | [] => none
       | c2 :: rest2 =>
           if c2 = 'd' then some (digitCC, rest2)
           else if c2.isAlphanum then none
           else some (litCC c2, rest2))
    else if c = '[' then
      (match rest with
       | '^' :: rest2 => parseClassAux true rest2 [] []
       | _ => parseClassAux false rest [] [])
    else if pcreMeta.contains c then none
    else some (litCC c, rest)

/-- Parse a linear pattern into items. The fuel only bounds the number of
items; since every atom consumes at least one character, fuel equal to the
pattern length never runs out on a parseable pattern. -/
def parseItemsAux : Nat → List Char → Option (List RItem)
  | _, [] => some []
  | 0, _ :: _ => none
  | fuel + 1, cs => do
      let (cc, rest) ← parseAtom cs
      let (lo, hi, rest2) ← parseQuant rest
      let items ← parseItemsAux fuel rest2
      return ⟨cc, lo, hi⟩ :: items

def parseLinear (cs : List Char) : Option (List RItem) :=
  parseItemsAux cs.length cs

/-- A MongoDB `$regex` pattern of the shape `^body$`: check and remove the
anchors. -/
def stripAnchors (cs : List Char) : Option (List Char) :=
  match cs with
  | '^' :: rest =>
      if h : rest = [] then none
      else if rest.getLast h = '$' then some rest.dropLast else none
  | _ => none

/-- Case-insensitive anchored matching of a MongoDB `$regex` pattern
(`$options: "i"`), as issued by `user_already_exists`: the pattern must be
`^body$` with `body` in the linear PCRE fragment; the anchors make it a
full-string match. A pattern outside the modelled fragment yields no
match. -/
def mongoRegexMatchCI (pat : String) (s : String) : Bool :=
  match stripAnchors pat.data with
  | none => false
  | some body =>
    match parseLinear body with
    | none => false
    | some items => matchItems ccMemCI items s.data

/-! ## Python `float()` and `is_valid_experience` (lines 36–41)

Python's `float()` accepts an optionally signed decimal literal (digits with
single underscores between them, optional fraction and exponent) or the
special words `inf`/`infinity`/`nan`, case-insensitively, surrounded by
optional whitespace; anything else raises `ValueError`.  Finite values are
modelled exactly as rationals (the rounding of a decimal literal to the
nearest IEEE double moves it by less than an ulp and is not modelled). -/

inductive PyFloat where
  | finite (q : ℚ)
  | inf (neg : Bool)
  | nan
  deriving DecidableEq

def isRunChar (c : Char) : Bool := c.isDigit || c = '_'

def noDoubleUnderscore : List Char → Bool
  | '_' :: '_' :: _ => false
  | _ :: rest => noDoubleUnderscore rest
  | [] => true

/-- Consume a maximal run of digits and underscores. A non-empty run must
start and end with a digit and have no two adjacent underscores (Python's
"single underscore between digits" rule); otherwise the literal is
malformed (`none`). Returns the value, the digit count and the rest. An
empty run is returned as zero digits, not an error. -/
def digitRun (cs : List Char) : Option (Nat × Nat × List Char) :=
  let run := cs.takeWhile isRunChar
  let rest := cs.dropWhile isRunChar
  match run.head?, run.getLast? with
  | none, _ => some (0, 0, cs)
  | some h, some l =>
      if h.isDigit && l.isDigit && noDoubleUnderscore run then
        let ds := run.filter (·.isDigit)
        some (digitsVal ds, ds.length, rest)
      else none
  | some _, none => none

/-- Parse an optional exponent suffix (the input is already lowercased);
the whole remaining input must be consumed. -/
def parseExpSuffix (cs : List Char) : Option Int :=
  match cs with
  | [] => some 0
  | 'e' :: rest =>
      let sr : Bool × List Char :=
        match rest with
        | '+' :: r => (false, r)
        | '-' :: r => (true, r)
        | r => (false, r)
      (match digitRun sr.2 with
       | some (v, cnt, r2) =>
           if cnt ≥ 1 ∧ r2 = [] then some (if sr.1 then -(v : Int) else (v : Int))
           else none
       | none => none)
  | _ => none

/-- The exact rational value of the literal with integer digits `ival`,
`fcnt` fraction digits of value `fval` and decimal exponent `e`, that is
`(ival + fval / 10 ^ fcnt) * 10 ^ e`, computed with kernel-friendly
core rational operations. -/
def decimalValue (ival fval fcnt : Nat) (e : Int) : ℚ :=
  let m : Nat := ival * 10 ^ fcnt + fval
  let sc : Int := e - (fcnt : Int)
  if 0 ≤ sc then mkRat (m * 10 ^ sc.toNat : Nat) 1
  else mkRat (m : Int) (10 ^ (-sc).toNat)

/-- Parse an unsigned decimal literal (digits, optional fraction, optional
exponent; at least one digit before any exponent) to its exact value. -/
def parsePyNumber (cs : List Char) : Option ℚ :=
  match digitRun cs with
  | none => none
  | some (ival, icnt, r1) =>
    match r1 with
    | '.' :: r2 =>
        (match digitRun r2 with
         | none => none
         | some (fval, fcnt, r3) =>
             if icnt + fcnt = 0 then none
             else
               (match parseExpSuffix r3 with
                | some e => some (decimalValue ival fval fcnt e)
                | none => none))
    | _ =>
        if icnt = 0 then none
        else
          (match parseExpSuffix r1 with
           | some e => some (decimalValue ival 0 0 e)
           | none => none)

/-- Model of Python `float(s)`: `none` means `ValueError`. -/
def parsePyFloat (s : String) : Option PyFloat :=
  let cs := (trimList s.data).map Char.toLower
  let sb : Bool × List Char :=
    match cs with
    | '+' :: r => (false, r)
    | '-' :: r => (true, r)
    | r => (false, r)
  if sb.2 = ['i', 'n', 'f'] ∨ sb.2 = ['i', 'n', 'f', 'i', 'n', 'i', 't', 'y'] then
    some (.inf sb.1)
  else if sb.2 = ['n', 'a', 'n'] then some .nan
  else
    match parsePyNumber sb.2 with
    | some q => some (.finite (if sb.1 then -q else q))
    | none => none

/-- `is_valid_experience` (line 36): `float(exp)` and the chained comparison
`0 <= val <= 50`; `ValueError` yields `False`.  An infinite or NaN value
fails the chained comparison. -/
def is_valid_experience (exp : String) : Bool :=
  match parsePyFloat exp with
  | some (.finite q) => decide ((0 : ℚ) ≤ q) && decide (q ≤ 50)
  | some _ => false
  | none => false

/-! ## Question generation (`generate_questions`, lines 52–77)

The Gemini call and `json.loads` are external; the function is modelled
from the point where `json.loads` has produced a Python value (or raised,
represented as `none`).  `JVal` is the Python value resulting from JSON
deserialisation: an object is an insertion-ordered association list with
distinct keys. -/

inductive JVal where
  | jnull
  | jbool (b : Bool)
  | jnum (n : Int)
  | jstr (s : String)
  | jarr (elems : List JVal)
  | jobj (fields : List (String × JVal))
  deriving BEq

/-- Python iteration over a value (`for q in qlist`): a list yields its
elements, a string yields its one-character substrings, a dict yields its
keys; other values raise `TypeError` (`none`). -/
def pyIter : JVal → Option (List JVal)
  | .jarr xs => some xs
  | .jstr s => some (s.data.map fun c => .jstr (String.mk [c]))
  | .jobj kvs => some (kvs.map fun kv => .jstr kv.1)
  | _ => none

/-- The loop of lines 70–73: flatten the parsed object into
`(tech, question)` pairs; `none` when iterating some value raises, in
which case the whole accumulated list is discarded by the `except`
handler. -/
def flattenQuestions : List (String × JVal) → Option (List (String × JVal))
  | [] => some []
  | (tech, v) :: rest =>
      match pyIter v with
      | none => none
      | some elems =>
          match flattenQuestions rest with
          | none => none
          | some tail => some ((elems.map fun q => (tech, q)) ++ tail)

/-- `generate_questions` from the result of `json.loads` on the cleaned
response text (`none` = the parse raised).  Returns the question list and
whether the error branch ran (`st.error` on line 76).  A non-dict
top-level value raises `AttributeError` at `.items()`; a non-iterable
dict value raises `TypeError` mid-loop; both are caught by the broad
`except`, which signals the error and returns the empty list. -/
def generate_questions_run (parsed : Option JVal) : List (String × JVal) × Bool :=
  match parsed with
  | none => ([], true)
  | some (.jobj kvs) =>
      (match flattenQuestions kvs with
       | some qs => (qs, false)
       | none => ([], true))
  | some _ => ([], true)

/-! ## Feedback generation (`generate_feedback`, lines 79–94)

The call `model.generate_content(prompt)` on line 88 sits outside the
`try` block, which only guards the `response.text` access on line 91; an
exception from the call itself therefore propagates out of the function
(`Except.error`), while a failure to extract the text is converted to the
fallback string. -/

inductive GenAIResult where
  | ok (text : String)
  | textFailure
  | callFailure
  deriving DecidableEq

def generate_feedback : GenAIResult → Except Unit String
  | .ok t => .ok (pyStrip t)
  | .textFailure => .ok "No feedback available."
  | .callFailure => .error ()

/-! ## Scorer (`calculate_score`, lines 96–109) -/

/-- A technical answer record as appended on lines 201–206. -/
structure TechAnswer where
  tech : String
  question : JVal
  answer : String
  feedback : String
  deriving BEq

/-- Python's `round()` on an exact rational: round half to even. -/
def pyRound (q : ℚ) : ℤ :=
  let f := ⌊q⌋
  if q - f < 1 / 2 then f
  else if q - f > 1 / 2 then f + 1
  else if f % 2 = 0 then f else f + 1

/-- The per-answer points of the loop on lines 98–105. -/
def answerPoints (answer : String) : ℤ :=
  let n := (pyStrip answer).length
  if n > 100 then 3 else if n > 50 then 2 else if n > 20 then 1 else 0

/-- `calculate_score` (line 96): bucket points per answer, then
`round(score / total_possible * 100)` with a zero-division guard.  The
float division is modelled as exact rational division (a difference only
materialises within an ulp of a rounding boundary). -/
def calculate_score (answers : List TechAnswer) : ℤ :=
  let score := answers.foldl (fun acc item => acc + answerPoints item.answer) 0
  let total_possible : ℤ := answers.length * 3
  if total_possible ≠ 0 then pyRound ((score : ℚ) / (total_possible : ℚ) * 100) else 0

/-- An answer record whose answer text has exactly `n` characters. -/
def answerOfLength (n : Nat) : TechAnswer :=
  ⟨"Python", .jstr "q", String.mk (List.replicate n 'a'), ""⟩

/-! ## Persistence (`user_already_exists` line 43, `save_to_mongo` line 111)

The MongoDB collection is modelled as a list of stored candidate
documents; `find_one` with the `$or` filter is an existence check and
`insert_one` appends. -/

/-- A stored candidate document (lines 238–242). -/
structure CandidateRecord where
  basic_info : List (String × String)
  technical_answers : List TechAnswer
  score_percent : ℤ
  deriving BEq

/-- Lookup in an insertion-ordered string dict. -/
def dictGet (d : List (String × String)) (k : String) : Option String :=
  (d.find? fun kv => kv.1 == k).map (·.2)

def dictGetD (d : List (String × String)) (k dflt : String) : String :=
  (dictGet d k).getD dflt

/-- `d[k] = v` on an insertion-ordered string dict. -/
def dictSet (d : List (String × String)) (k v : String) : List (String × String) :=
  if (d.find? fun kv => kv.1 == k).isSome then
    d.map fun kv => if kv.1 == k then (k, v) else kv
  else d ++ [(k, v)]

/-- `user_already_exists` (line 43): `find_one` with
`$or` of a case-insensitive anchored `$regex` on `basic_info.Email`
(the email string interpolated into the pattern) and exact equality on
`basic_info.Phone Number`; a document missing a queried field does not
match it. -/
def user_already_exists (db : List CandidateRecord) (email phone_number : String) : Bool :=
  db.any fun r =>
    (match dictGet r.basic_info "Email" with
     | some v => mongoRegexMatchCI ("^" ++ email ++ "$") v
     | none => false)
    ||
    (match dictGet r.basic_info "Phone Number" with
     | some v => v == phone_number
     | none => false)

/-- `save_to_mongo` (line 111): `insert_one`. -/
def save_to_mongo (db : List CandidateRecord) (candidate_data : CandidateRecord) :
    List CandidateRecord :=
  db ++ [candidate_data]

/-! ## The wizard state machine (`main`, lines 115–245)

`st.session_state` is modelled as an explicit `Session` value; each
user-triggered submission is one transition.  The Streamlit rendering
calls are external; the user-visible effect of a branch is reported as an
`Outcome` (`warned` = `st.warning`/`st.error` with `return`, `stopped` =
`st.stop()`, `advanced` = state stored and step/index advanced). -/

/-- `form_fields` (lines 21–24). -/
def form_fields : List String :=
  ["Full Name", "Email", "Phone Number", "Years of Experience",
   "Desired Position(s)", "Current Location", "Tech Stack"]

structure Session where
  step : Nat
  answers : List (String × String)
  questions : List (String × JVal)
  tech_answers : List TechAnswer
  feedbacks : List String
  question_index : Nat
  deriving BEq

/-- The fresh session of lines 119–125. -/
def initSession : Session := ⟨0, [], [], [], [], 0⟩

inductive Outcome where
  | advanced
  | warned
  | stopped
  | genFailed
  | saved
  | rejected
  deriving DecidableEq

/-- One submission in a field-collection state (lines 132–168): strip the
input, reject empty input, run the field-specific validator, run the
duplicate check after Email and after Phone Number, and on success store
the value and advance. -/
def submitField (db : List CandidateRecord) (s : Session) (raw : String) :
    Session × Outcome :=
  let input := pyStrip raw
  let field := form_fields.getD s.step ""
  if input = "" then (s, .warned)
  else if field = "Full Name" && !is_valid_name input then (s, .warned)
  else if field = "Email" && !is_valid_email input then (s, .warned)
  else if field = "Email" && user_already_exists db input "" then (s, .stopped)
  else if field = "Phone Number" && !is_valid_phone input then (s, .warned)
  else if field = "Phone Number"
      && user_already_exists db (dictGetD s.answers "Email" "") input then (s, .stopped)
  else if field = "Years of Experience" && !is_valid_experience input then (s, .warned)
  else ({ s with answers := dictSet s.answers field input, step := s.step + 1 }, .advanced)

/-- The question-generation state (lines 171–179).  `qs` is the value the
external `generate_questions` call produced for the stored tech stack. -/
def generateStep (s : Session) (qs : List (String × JVal)) : Session × Outcome :=
  let tech_stack := dictGetD s.answers "Tech Stack" ""
  if tech_stack ≠ "" then ({ s with questions := qs, step := s.step + 1 }, .advanced)
  else (s, .genFailed)

/-- One turn in the answering state (lines 182–212).  With a question left,
an empty answer warns and changes nothing; otherwise the answer record is
appended (with the stripped answer and the externally generated feedback
`fb`) and the question index advances.  With no question left, the step
advances to the summary. -/
def answerStep (s : Session) (raw : String) (fb : String) : Session × Outcome :=
  if s.question_index < s.questions.length then
    let a := pyStrip raw
    if a = "" then (s, .warned)
    else
      let q := s.questions.getD s.question_index ("", .jnull)
      ({ s with
          tech_answers := s.tech_answers ++ [⟨q.1, q.2, a, fb⟩],
          feedbacks := s.feedbacks ++ [fb],
          question_index := s.question_index + 1 }, .advanced)
  else ({ s with step := s.step + 1 }, .advanced)

/-- The final submit action (lines 232–245): re-run the duplicate check on
the stored email and phone; a duplicate warns and writes nothing, leaving
the session in the summary state; otherwise exactly one candidate document
is assembled and inserted, and the script halts. -/
def submitFinal (db : List CandidateRecord) (s : Session) :
    List CandidateRecord × Session × Outcome :=
  let email := dictGetD s.answers "Email" ""
  let phone := dictGetD s.answers "Phone Number" ""
  if user_already_exists db email phone then (db, s, .rejected)
  else
    (save_to_mongo db ⟨s.answers, s.tech_answers, calculate_score s.tech_answers⟩,
     s, .saved)

/-- Fold a list of form submissions through `submitField`. -/
def runForm (db : List CandidateRecord) (s : Session) : List String → Session
  | [] => s
  | raw :: rest => runForm db (submitField db s raw).1 rest

/-- The sessions visited while folding form submissions (including the
start and end states). -/
def formTrace (db : List CandidateRecord) (s : Session) : List String → List Session
  | [] => [s]
  | raw :: rest => s :: formTrace db (submitField db s raw).1 rest

/-! ## Specification-side predicates and scenario data

The following definitions state the spec's wording (shape patterns,
per-field validator, scenario inputs); they are compared with the
source-derived definitions above in the claim theorems. -/

/-- The spec's `local@domain.tld` shape: one or more non-`@` characters,
exactly one `@`, one or more non-`@` characters, a dot, one or more
non-`@` characters — as a full-string decomposition. -/
def EmailShape (cs : List Char) : Prop :=
  ∃ A B C : List Char, A ≠ [] ∧ B ≠ [] ∧ C ≠ [] ∧
    (∀ c ∈ A, c ≠ '@') ∧ (∀ c ∈ B, c ≠ '@') ∧ (∀ c ∈ C, c ≠ '@') ∧
    cs = A ++ '@' :: (B ++ '.' :: C)

/-- The spec's phone shape: optional leading `+`, a nonzero leading digit,
then 1 to 14 more digits. -/
def PhoneShape (cs : List Char) : Prop :=
  ∃ (plus : List Char) (d : Char) (ds : List Char),
    (plus = [] ∨ plus = ['+']) ∧ ('1' ≤ d ∧ d ≤ '9') ∧
    (∀ c ∈ ds, c.isDigit = true) ∧ 1 ≤ ds.length ∧ ds.length ≤ 14 ∧
    cs = plus ++ d :: ds

/-- The spec's per-field validator of the field-collection states. -/
def validatorFor (field : String) : String → Bool :=
  if field = "Full Name" then is_valid_name
  else if field = "Email" then is_valid_email
  else if field = "Phone Number" then is_valid_phone
  else if field = "Years of Experience" then is_valid_experience
  else fun _ => true

/-- The duplicate check applied by the form step for the current field
(after Email with a blank phone, after Phone Number with the stored
email). -/
def dupGate (db : List CandidateRecord) (s : Session) (input : String) : Bool :=
  let field := form_fields.getD s.step ""
  (field = "Email" && user_already_exists db input "")
  || (field = "Phone Number" && user_already_exists db (dictGetD s.answers "Email" "") input)

/-- Valid, non-duplicate values for the seven profile fields. -/
def demoInputs : List String :=
  ["John Doe", "john@x.com", "12345678", "3", "Developer", "Hyderabad", "Python"]

def demoQuestions : List (String × JVal) :=
  [("Python", .jstr "q1"), ("Python", .jstr "q2"), ("Python", .jstr "q3")]

/-- A stored collection holding one candidate. -/
def dupDb : List CandidateRecord :=
  [⟨[("Email", "a@x.com"), ("Phone Number", "123")], [], 0⟩]

/-- A session that has stored the name and is at the Email step. -/
def emailStepSession : Session :=
  { initSession with step := 1, answers := [("Full Name", "John Doe")] }

/-- The sessions reachable inside the answering loop: entry with question
index 0 and no collected answers, then any number of answering
transitions. -/
inductive ReachAnswering : Session → Prop
  | base (s : Session) : s.step = form_fields.length + 1 → s.question_index = 0 →
      s.tech_answers = [] → ReachAnswering s
  | step (s : Session) (raw fb : String) : ReachAnswering s →
      s.step = form_fields.length + 1 → ReachAnswering (answerStep s raw fb).1

def dummyQuestion : String × JVal := ("", .jnull)

def dummyAnswer : TechAnswer := ⟨"", .jnull, "", ""⟩

/-- Alignment of collected answers with the question list: the `i`-th
record carries the technology and question of the `i`-th question,
and a non-empty, trimmed answer. -/
def RecordsAligned (s : Session) : Prop :=
  ∀ i, i < s.tech_answers.length →
    (s.tech_answers.getD i dummyAnswer).tech = (s.questions.getD i dummyQuestion).1
    ∧ (s.tech_answers.getD i dummyAnswer).question = (s.questions.getD i dummyQuestion).2
    ∧ (s.tech_answers.getD i dummyAnswer).answer ≠ ""
    ∧ pyStrip (s.tech_answers.getD i dummyAnswer).answer
        = (s.tech_answers.getD i dummyAnswer).answer

/-- A session entering the answering loop with one generated question. -/
def c10Session : Session := ⟨8, [], [("Python", JVal.jstr "q1")], [], [], 0⟩

/-! ## Helper lemmas -/

theorem head?_dropWhile_not {p : Char → Bool} {l : List Char} {c : Char}
    (h : (l.dropWhile p).head? = some c) : p c = false := by
  induction l with
  | nil => simp at h
  | cons a t ih =>
    by_cases ha : p a
    · rw [List.dropWhile_cons_of_pos ha] at h
      exact ih h
    · rw [List.dropWhile_cons_of_neg ha] at h
      simp at h
      subst h
      simpa using ha

theorem dropWhile_eq_self_of_head? {p : Char → Bool} {l : List Char}
    (h : ∀ c, l.head? = some c → p c = false) : l.dropWhile p = l := by
  cases l with
  | nil => rfl
  | cons a t =>
    have := h a (by simp)
    simp [List.dropWhile_cons, this]

theorem trimList_idem (cs : List Char) : trimList (trimList cs) = trimList cs := by
  set p := isPyWS with hp
  set A := cs.dropWhile p with hA
  set C := A.reverse.dropWhile p with hC
  -- trimList cs = C.reverse, and A.reverse = takeWhile ++ C
  have hsplit : A.reverse = A.reverse.takeWhile p ++ C :=
    (List.takeWhile_append_dropWhile p A.reverse).symm
  have hAform : A = C.reverse ++ (A.reverse.takeWhile p).reverse := by
    have := congrArg List.reverse hsplit
    simpa using this
  have hR : trimList cs = C.reverse := by
    simp [trimList, ← hA, ← hC]
  -- Step 1: no leading whitespace in C.reverse
  have step1 : C.reverse.dropWhile p = C.reverse := by
    apply dropWhile_eq_self_of_head?
    intro c hhead
    have hne : C.reverse ≠ [] := by
      intro h0
      rw [h0] at hhead
      simp at hhead
    have hAhead : A.head? = some c := by
      rw [hAform, List.head?_append, hhead]
      rfl
    exact head?_dropWhile_not (p := p) (l := cs) (hA ▸ hAhead)
  -- Step 2: no leading whitespace in C
  have step2 : C.dropWhile p = C := by
    apply dropWhile_eq_self_of_head?
    intro c hhead
    exact head?_dropWhile_not (hC ▸ hhead)
  rw [hR]
  show ((C.reverse.dropWhile p).reverse.dropWhile p).reverse = C.reverse
  rw [step1]
  simp [step2]

theorem pyStrip_idem (s : String) : pyStrip (pyStrip s) = pyStrip s := by
  simp [pyStrip, trimList_idem]

theorem matchItems_iff (mem : CClass → Char → Bool) (its : List RItem) (cs : List Char) :
    matchItems mem its cs = true ↔ ItemsMatch mem its cs := by
  induction its generalizing cs with
  | nil =>
    constructor
    · intro h
      have : cs = [] := by simpa [matchItems] using h
      subst this
      exact ItemsMatch.nil
    · intro h
      cases h
      simp [matchItems]
  | cons it its ih =>
    constructor
    · intro h
      simp only [matchItems, List.any_eq_true, List.mem_range] at h
      obtain ⟨n, hn, hcond⟩ := h
      simp only [Bool.and_eq_true, decide_eq_true_eq] at hcond
      obtain ⟨⟨⟨hlo, hhi⟩, hall⟩, hrest⟩ := hcond
      have hnlen : n ≤ cs.length := Nat.lt_succ_iff.mp hn
      have hsplit : cs = cs.take n ++ cs.drop n := (List.take_append_drop n cs).symm
      have hblen : (cs.take n).length = n := by
        simp [List.length_take, Nat.min_eq_left hnlen]
      rw [hsplit]
      exact ItemsMatch.cons it its (cs.take n) (cs.drop n)
        (by rw [hblen]; exact hlo) (by rw [hblen]; exact hhi) hall (ih _ |>.mp hrest)
    · intro h
      cases h with
      | cons it its b rest hlo hhi hall hrest =>
        simp only [matchItems, List.any_eq_true, List.mem_range]
        refine ⟨b.length, ?_, ?_⟩
        · simp only [List.length_append]
          omega
        · have htake : (b ++ rest).take b.length = b := List.take_left b rest
          have hdrop : (b ++ rest).drop b.length = rest := List.drop_left b rest
          simp only [Bool.and_eq_true, decide_eq_true_eq, htake, hdrop]
          exact ⟨⟨⟨hlo, hhi⟩, hall⟩, (ih _).mpr hrest⟩

theorem matchAtStart_iff (mem : CClass → Char → Bool) (its : List RItem) (cs : List Char) :
    matchAtStart mem its cs = true ↔ ∃ p q, cs = p ++ q ∧ ItemsMatch mem its p := by
  constructor
  · intro h
    simp only [matchAtStart, List.any_eq_true, List.mem_range] at h
    obtain ⟨n, hn, hm⟩ := h
    exact ⟨cs.take n, cs.drop n, (List.take_append_drop n cs).symm,
      (matchItems_iff mem its _).mp hm⟩
  · rintro ⟨p, q, rfl, hm⟩
    simp only [matchAtStart, List.any_eq_true, List.mem_range]
    refine ⟨p.length, by simp [List.length_append]; omega, ?_⟩
    rw [List.take_left p q]
    exact (matchItems_iff mem its p).mpr hm

/-! ## Scorer lemmas and claim C2 -/

theorem answerPoints_nonneg (a : String) : 0 ≤ answerPoints a := by
  unfold answerPoints
  dsimp only
  split_ifs <;> norm_num

theorem answerPoints_le_three (a : String) : answerPoints a ≤ 3 := by
  unfold answerPoints
  dsimp only
  split_ifs <;> norm_num

theorem score_foldl_eq_sum (answers : List TechAnswer) (init : ℤ) :
    answers.foldl (fun acc item => acc + answerPoints item.answer) init
      = init + (answers.map fun a => answerPoints a.answer).sum := by
  induction answers generalizing init with
  | nil => simp
  | cons a rest ih =>
    simp only [List.foldl_cons, List.map_cons, List.sum_cons, ih]
    ring

theorem points_sum_nonneg (answers : List TechAnswer) :
    0 ≤ (answers.map fun a => answerPoints a.answer).sum := by
  induction answers with
  | nil => simp
  | cons a rest ih =>
    simp only [List.map_cons, List.sum_cons]
    have := answerPoints_nonneg a.answer
    omega

theorem points_sum_le (answers : List TechAnswer) :
    (answers.map fun a => answerPoints a.answer).sum ≤ 3 * (answers.length : ℤ) := by
  induction answers with
  | nil => simp
  | cons a rest ih =>
    simp only [List.map_cons, List.sum_cons, List.length_cons]
    have := answerPoints_le_three a.answer
    push_cast
    push_cast at ih
    linarith

theorem pyRound_nonneg {q : ℚ} (h : 0 ≤ q) : 0 ≤ pyRound q := by
  unfold pyRound
  dsimp only
  have h0 : (0 : ℤ) ≤ ⌊q⌋ := Int.floor_nonneg.mpr h
  split_ifs <;> omega

theorem pyRound_le_int {q : ℚ} {n : ℤ} (h : q ≤ (n : ℚ)) : pyRound q ≤ n := by
  unfold pyRound
  dsimp only
  have hf : ⌊q⌋ ≤ n := by
    have := Int.floor_le_floor h
    simpa using this
  split_ifs with h1 h2 h3
  · exact hf
  · have hlt : (⌊q⌋ : ℚ) < q := by linarith
    have hc : (⌊q⌋ : ℚ) < (n : ℚ) := lt_of_lt_of_le hlt h
    have : ⌊q⌋ < n := by exact_mod_cast hc
    omega
  · exact hf
  · have hlt : (⌊q⌋ : ℚ) < q := by linarith
    have hc : (⌊q⌋ : ℚ) < (n : ℚ) := lt_of_lt_of_le hlt h
    have : ⌊q⌋ < n := by exact_mod_cast hc
    omega

theorem pyRound_intCast (n : ℤ) : pyRound (n : ℚ) = n := by
  unfold pyRound
  rw [Int.floor_intCast]
  norm_num

/-- Evaluation lemma for `calculate_score` on a non-empty list, with the
rational expression in a fixed cast shape. -/
theorem calculate_score_eval (answers : List TechAnswer) (s r : ℤ) (n : ℕ)
    (hs : (answers.map fun a => answerPoints a.answer).sum = s)
    (hn : answers.length = n) (h0 : n ≠ 0)
    (hr : pyRound ((s : ℚ) / ((n : ℚ) * 3) * 100) = r) :
    calculate_score answers = r := by
  unfold calculate_score
  rw [score_foldl_eq_sum, zero_add, hs, hn]
  have hne : ((n : ℤ) * 3) ≠ 0 := by
    have : (0 : ℤ) < (n : ℤ) := by exact_mod_cast Nat.pos_of_ne_zero h0
    nlinarith
  simp only [ne_eq, hne, not_false_iff, if_true]
  rw [← hr]
  congr 1
  push_cast
  ring

/-- **C2.** The Scorer awards per answer, by trimmed answer length,
3 points above 100 characters, else 2 above 50, else 1 above 20, else 0;
the result is the rounding (Python `round`, half to even) of
`sum / (3 × number of answers) × 100`; the empty list scores 0; the result
always lies in 0–100; and the three spec examples evaluate as claimed. -/
theorem c2_scorer_correct :
    (∀ answers : List TechAnswer,
        calculate_score answers =
          if answers.length = 0 then 0
          else pyRound ((((answers.map fun a => answerPoints a.answer).sum : ℤ) : ℚ)
            / ((answers.length : ℚ) * 3) * 100))
    ∧ (∀ answers : List TechAnswer,
        0 ≤ calculate_score answers ∧ calculate_score answers ≤ 100)
    ∧ calculate_score [] = 0
    ∧ calculate_score [answerOfLength 101] = 100
    ∧ calculate_score [answerOfLength 10] = 0
    ∧ calculate_score [answerOfLength 101, answerOfLength 21] = 67 := by
  have hforms : ∀ answers : List TechAnswer,
      calculate_score answers =
        if answers.length = 0 then 0
        else pyRound ((((answers.map fun a => answerPoints a.answer).sum : ℤ) : ℚ)
          / ((answers.length : ℚ) * 3) * 100) := by
    intro answers
    by_cases h : answers.length = 0
    · have : answers = [] := List.length_eq_zero.mp h
      subst this
      simp [calculate_score]
    · rw [calculate_score_eval answers _ _ answers.length rfl rfl h rfl]
      simp [h]
  have hbounds : ∀ answers : List TechAnswer,
      0 ≤ calculate_score answers ∧ calculate_score answers ≤ 100 := by
    intro answers
    rw [hforms answers]
    by_cases h : answers.length = 0
    · simp [h]
    · simp only [h, if_false]
      have hlenpos : (0 : ℚ) < (answers.length : ℚ) * 3 := by
        have : 0 < answers.length := Nat.pos_of_ne_zero h
        positivity
      have hsum0 : (0 : ℚ) ≤ (((answers.map fun a => answerPoints a.answer).sum : ℤ) : ℚ) := by
        exact_mod_cast points_sum_nonneg answers
      have hsumle : (((answers.map fun a => answerPoints a.answer).sum : ℤ) : ℚ)
          ≤ (answers.length : ℚ) * 3 := by
        have h1 : (((answers.map fun a => answerPoints a.answer).sum : ℤ) : ℚ)
            ≤ ((3 * (answers.length : ℤ) : ℤ) : ℚ) := Int.cast_le.mpr (points_sum_le answers)
        have h2 : ((3 * (answers.length : ℤ) : ℤ) : ℚ) = (answers.length : ℚ) * 3 := by
          push_cast
          ring
        linarith
      constructor
      · apply pyRound_nonneg
        positivity
      · apply pyRound_le_int
        have hdiv : (((answers.map fun a => answerPoints a.answer).sum : ℤ) : ℚ)
            / ((answers.length : ℚ) * 3) ≤ 1 := by
          rw [div_le_one hlenpos]
          exact hsumle
        calc (((answers.map fun a => answerPoints a.answer).sum : ℤ) : ℚ)
              / ((answers.length : ℚ) * 3) * 100 ≤ 1 * 100 := by
              apply mul_le_mul_of_nonneg_right hdiv
              norm_num
          _ = ((100 : ℤ) : ℚ) := by norm_num
  refine ⟨hforms, hbounds, by simp [calculate_score], ?_, ?_, ?_⟩
  · apply calculate_score_eval _ 3 100 1 (by decide) (by decide) (by decide)
    rw [show ((3 : ℤ) : ℚ) / (((1 : ℕ) : ℚ) * 3) * 100 = ((100 : ℤ) : ℚ) by push_cast; norm_num]
    exact pyRound_intCast 100
  · apply calculate_score_eval _ 0 0 1 (by decide) (by decide) (by decide)
    rw [show ((0 : ℤ) : ℚ) / (((1 : ℕ) : ℚ) * 3) * 100 = ((0 : ℤ) : ℚ) by push_cast; norm_num]
    exact pyRound_intCast 0
  · apply calculate_score_eval _ 4 67 2 (by decide) (by decide) (by decide)
    rw [show ((4 : ℤ) : ℚ) / (((2 : ℕ) : ℚ) * 3) * 100 = (200 / 3 : ℚ) by push_cast; norm_num]
    unfold pyRound
    rw [show ⌊(200 / 3 : ℚ)⌋ = 66 by norm_num [Int.floor_eq_iff]]
    norm_num

/-! ## Claim C4: feedback fallback -/

/-- **C4 counterexample.** A failure of the completion-service call itself
(`model.generate_content`, line 88, outside the `try` block) propagates as
an exception instead of yielding the fallback string, so feedback
generation can block the session. -/
theorem c4_counterexample :
    generate_feedback GenAIResult.callFailure = Except.error () := rfl

/-- **C4 (amended).** Only a failure while extracting the response text is
downgraded to the fixed fallback string `"No feedback available."`; a
successful call returns the trimmed response text. (A failure of the
completion-service call itself propagates, per the counterexample.) -/
theorem c4_feedback_fallback :
    generate_feedback GenAIResult.textFailure = Except.ok "No feedback available."
    ∧ (∀ t, generate_feedback (GenAIResult.ok t) = Except.ok (pyStrip t))
    ∧ (∀ r, r ≠ GenAIResult.callFailure → ∃ out, generate_feedback r = Except.ok out) := by
  refine ⟨rfl, fun t => rfl, fun r hr => ?_⟩
  cases r with
  | ok t => exact ⟨pyStrip t, rfl⟩
  | textFailure => exact ⟨"No feedback available.", rfl⟩
  | callFailure => exact absurd rfl hr

theorem c4_feedback_fallback_witness :
    ∃ out, generate_feedback GenAIResult.textFailure = Except.ok out :=
  c4_feedback_fallback.2.2 GenAIResult.textFailure (by intro h; cases h)

/-! ## Claim C3: question generation -/

theorem flattenQuestions_arrays (kvs : List (String × List String)) :
    flattenQuestions (kvs.map fun kv => (kv.1, JVal.jarr (kv.2.map JVal.jstr)))
      = some (kvs.flatMap fun kv => kv.2.map fun q => (kv.1, JVal.jstr q)) := by
  induction kvs with
  | nil => rfl
  | cons kv rest ih =>
    simp only [List.map_cons, flattenQuestions, pyIter, ih, List.flatMap_cons]
    congr 1
    simp [List.map_map, Function.comp]

theorem flattenQuestions_bad (pre : List (String × JVal)) (tech : String) (v : JVal)
    (post : List (String × JVal)) (hv : pyIter v = none) :
    flattenQuestions (pre ++ (tech, v) :: post) = none := by
  induction pre with
  | nil => simp [flattenQuestions, hv]
  | cons p pre ih =>
    simp only [List.cons_append, flattenQuestions]
    cases pyIter p.2 with
    | none => rfl
    | some elems =>
        have ih2 : flattenQuestions (pre.append ((tech, v) :: post)) = none := ih
        rw [ih2]

/-- **C3 counterexample.** A syntactically valid JSON object whose value is
a string (wrong shape) is not rejected: Python iterates the string, so the
call returns two one-character "questions" and signals no error, instead
of returning the empty sequence with an error. -/
theorem c3_counterexample :
    generate_questions_run (some (JVal.jobj [("Python", JVal.jstr "q1")]))
      = ([("Python", JVal.jstr "q"), ("Python", JVal.jstr "1")], false) := rfl

/-- **C3 (amended).** When the parsed value is an object mapping names to
arrays of strings, the flat ordered `(technology, question)` pairs are
returned, technology-major in object order, with no error; a parse failure
or a non-object top-level value signals an error and returns the empty
sequence, as does an object containing a non-iterable value; but an
object value that is a string is iterated per character rather than
rejected (see the counterexample). -/
theorem c3_generate_questions :
    (∀ kvs : List (String × List String),
        generate_questions_run
            (some (JVal.jobj (kvs.map fun kv => (kv.1, JVal.jarr (kv.2.map JVal.jstr)))))
          = (kvs.flatMap fun kv => kv.2.map fun q => (kv.1, JVal.jstr q), false))
    ∧ generate_questions_run none = ([], true)
    ∧ (∀ v : JVal, (∀ kvs, v ≠ JVal.jobj kvs) → generate_questions_run (some v) = ([], true))
    ∧ (∀ (pre : List (String × JVal)) (tech : String) (v : JVal) (post : List (String × JVal)),
        pyIter v = none →
        generate_questions_run (some (JVal.jobj (pre ++ (tech, v) :: post))) = ([], true)) := by
  refine ⟨?_, rfl, ?_, ?_⟩
  · intro kvs
    simp [generate_questions_run, flattenQuestions_arrays]
  · intro v hv
    cases v with
    | jobj kvs => exact absurd rfl (hv kvs)
    | jnull => rfl
    | jbool b => rfl
    | jnum n => rfl
    | jstr s => rfl
    | jarr xs => rfl
  · intro pre tech v post hv
    simp [generate_questions_run, flattenQuestions_bad pre tech v post hv]

theorem c3_generate_questions_witness :
    generate_questions_run (some (JVal.jarr [])) = ([], true)
    ∧ generate_questions_run (some (JVal.jobj [("Python", JVal.jnum 1)])) = ([], true) :=
  ⟨c3_generate_questions.2.2.1 (JVal.jarr []) (fun kvs h => by cases h),
   c3_generate_questions.2.2.2 [] "Python" (JVal.jnum 1) [] rfl⟩

/-! ## Claim C7: experience validator -/

/-- **C7.** `is_valid_experience` accepts exactly the strings that
`float()` parses to a finite value in `[0, 50]`; the spec's examples
behave as claimed. -/
theorem c7_experience_validator :
    (∀ s : String, is_valid_experience s = true ↔
        ∃ q : ℚ, parsePyFloat s = some (PyFloat.finite q) ∧ 0 ≤ q ∧ q ≤ 50)
    ∧ is_valid_experience "-1" = false
    ∧ is_valid_experience "51" = false
    ∧ is_valid_experience "abc" = false
    ∧ parsePyFloat "-1" = some (PyFloat.finite (-1))
    ∧ parsePyFloat "51" = some (PyFloat.finite 51)
    ∧ is_valid_experience "25.5" = true := by
  refine ⟨?_, by decide, by decide, by decide, by decide, by decide, by decide⟩
  intro s
  unfold is_valid_experience
  cases h : parsePyFloat s with
  | none => simp [h]
  | some v =>
    cases v with
    | finite q =>
        simp only [h, Bool.and_eq_true, decide_eq_true_eq, Option.some_inj]
        constructor
        · rintro ⟨h1, h2⟩
          exact ⟨q, rfl, h1, h2⟩
        · rintro ⟨q2, heq, h1, h2⟩
          cases heq
          exact ⟨h1, h2⟩
    | inf neg => simp [h]
    | nan => simp [h]

/-! ## Claims C6 and C5: phone and email validators -/

theorem ccMem_lit {d c : Char} : ccMem (litCC d) c = true ↔ c = d := by
  simp [ccMem, litCC]

theorem ccMem_notAt {c : Char} : ccMem notAtCC c = true ↔ c ≠ '@' := by
  simp [ccMem, notAtCC]

theorem ccMem_digit {c : Char} : ccMem digitCC c = true ↔ c.isDigit = true := by
  simp only [ccMem, digitCC]
  simp only [Char.isDigit]
  simp [Char.le_def]

theorem ccMem_nonzero {c : Char} : ccMem nonzeroDigitCC c = true ↔ ('1' ≤ c ∧ c ≤ '9') := by
  simp [ccMem, nonzeroDigitCC]

theorem itemsMatch_phone_iff (cs : List Char) :
    ItemsMatch ccMem phoneItems cs ↔ PhoneShape cs := by
  constructor
  · intro h
    cases h with
    | cons it1 its1 b1 rest1 hlo1 hhi1 hall1 h2 =>
      cases h2 with
      | cons it2 its2 b2 rest2 hlo2 hhi2 hall2 h3 =>
        cases h3 with
        | cons it3 its3 b3 rest3 hlo3 hhi3 hall3 h4 =>
          cases h4
          have hb1hi : b1.length ≤ 1 := by
            have h : hiOk (some 1) b1.length = true := hhi1
            simpa [hiOk] using h
          have hb1 : b1 = [] ∨ b1 = ['+'] := by
            match b1, hb1hi with
            | [], _ => exact Or.inl rfl
            | [c], _ =>
                have hc : ccMem (litCC '+') c = true := by
                  have hx : ([c] : List Char).all (ccMem (litCC '+')) = true := hall1
                  simpa using hx
                exact Or.inr (by rw [ccMem_lit.mp hc])
          have hb2lo : 1 ≤ b2.length := hlo2
          have hb2hi : b2.length ≤ 1 := by
            have h : hiOk (some 1) b2.length = true := hhi2
            simpa [hiOk] using h
          obtain ⟨d, hd⟩ := List.length_eq_one.mp (by omega : b2.length = 1)
          subst hd
          have hdnz : '1' ≤ d ∧ d ≤ '9' := by
            apply ccMem_nonzero.mp
            have hx : ([d] : List Char).all (ccMem nonzeroDigitCC) = true := hall2
            simpa using hx
          have hb3 : ∀ c ∈ b3, c.isDigit = true := by
            intro c hc
            apply ccMem_digit.mp
            have hx : b3.all (ccMem digitCC) = true := hall3
            exact List.all_eq_true.mp hx c hc
          have hb3lo : 1 ≤ b3.length := hlo3
          have hb3hi : b3.length ≤ 14 := by
            have h : hiOk (some 14) b3.length = true := hhi3
            simpa [hiOk] using h
          exact ⟨b1, d, b3, hb1, hdnz, hb3, hb3lo, hb3hi, by simp⟩
  · rintro ⟨plus, d, ds, hplus, hdnz, hds, hlen1, hlen14, rfl⟩
    have heq : plus ++ d :: ds = plus ++ ([d] ++ (ds ++ ([] : List Char))) := by simp
    rw [heq]
    refine ItemsMatch.cons _ _ plus ([d] ++ (ds ++ [])) ?_ ?_ ?_ ?_
    · show 0 ≤ plus.length
      omega
    · show hiOk (some 1) plus.length = true
      rcases hplus with h | h <;> simp [h, hiOk]
    · show plus.all (ccMem (litCC '+')) = true
      rcases hplus with h | h
      · simp [h]
      · rw [h]
        simpa using ccMem_lit.mpr rfl
    refine ItemsMatch.cons _ _ [d] (ds ++ []) ?_ ?_ ?_ ?_
    · show 1 ≤ ([d] : List Char).length
      simp
    · show hiOk (some 1) ([d] : List Char).length = true
      simp [hiOk]
    · show ([d] : List Char).all (ccMem nonzeroDigitCC) = true
      simpa using ccMem_nonzero.mpr hdnz
    refine ItemsMatch.cons _ _ ds [] ?_ ?_ ?_ ItemsMatch.nil
    · show 1 ≤ ds.length
      omega
    · show hiOk (some 14) ds.length = true
      simp [hiOk]
      omega
    · show ds.all (ccMem digitCC) = true
      rw [List.all_eq_true]
      intro c hc
      exact ccMem_digit.mpr (hds c hc)

/-- **C6.** `is_valid_phone` accepts exactly the strings whose trimmed form
is an optional `+`, a nonzero leading digit, then 1 to 14 more (ASCII)
digits; `"0123456789"` (leading zero) is rejected. -/
theorem c6_phone_validator :
    (∀ s : String, is_valid_phone s = true ↔ PhoneShape (pyStrip s).data)
    ∧ is_valid_phone "0123456789" = false := by
  refine ⟨?_, by decide⟩
  intro s
  unfold is_valid_phone
  rw [matchItems_iff]
  exact itemsMatch_phone_iff _

theorem itemsMatch_email_iff (cs : List Char) :
    ItemsMatch ccMem emailItems cs ↔ EmailShape cs := by
  constructor
  · intro h
    cases h with
    | cons it1 its1 b1 rest1 hlo1 hhi1 hall1 h2 =>
      cases h2 with
      | cons it2 its2 b2 rest2 hlo2 hhi2 hall2 h3 =>
        cases h3 with
        | cons it3 its3 b3 rest3 hlo3 hhi3 hall3 h4 =>
          cases h4 with
          | cons it4 its4 b4 rest4 hlo4 hhi4 hall4 h5 =>
            cases h5 with
            | cons it5 its5 b5 rest5 hlo5 hhi5 hall5 h6 =>
              cases h6
              have hat : ∀ (b : List Char), b.all (ccMem notAtCC) = true →
                  ∀ c ∈ b, c ≠ '@' := by
                intro b hb c hc
                exact ccMem_notAt.mp (List.all_eq_true.mp hb c hc)
              have hb2lo : 1 ≤ b2.length := hlo2
              have hb2hi : b2.length ≤ 1 := by
                have h : hiOk (some 1) b2.length = true := hhi2
                simpa [hiOk] using h
              obtain ⟨x2, hx2⟩ := List.length_eq_one.mp (by omega : b2.length = 1)
              subst hx2
              have hx2at : x2 = '@' := by
                apply ccMem_lit.mp
                have hx : ([x2] : List Char).all (ccMem (litCC '@')) = true := hall2
                simpa using hx
              have hb4lo : 1 ≤ b4.length := hlo4
              have hb4hi : b4.length ≤ 1 := by
                have h : hiOk (some 1) b4.length = true := hhi4
                simpa [hiOk] using h
              obtain ⟨x4, hx4⟩ := List.length_eq_one.mp (by omega : b4.length = 1)
              subst hx4
              have hx4dot : x4 = '.' := by
                apply ccMem_lit.mp
                have hx : ([x4] : List Char).all (ccMem (litCC '.')) = true := hall4
                simpa using hx
              subst hx2at
              subst hx4dot
              have hb1lo : 1 ≤ b1.length := hlo1
              have hb3lo : 1 ≤ b3.length := hlo3
              have hb5lo : 1 ≤ b5.length := hlo5
              refine ⟨b1, b3, b5, ?_, ?_, ?_, hat b1 hall1, hat b3 hall3, hat b5 hall5, ?_⟩
              · intro h0
                rw [h0] at hb1lo
                simp at hb1lo
              · intro h0
                rw [h0] at hb3lo
                simp at hb3lo
              · intro h0
                rw [h0] at hb5lo
                simp at hb5lo
              · simp
  · rintro ⟨A, B, C, hA0, hB0, hC0, hA, hB, hC, rfl⟩
    have hnotAt : ∀ (b : List Char), (∀ c ∈ b, c ≠ '@') → b.all (ccMem notAtCC) = true := by
      intro b hb
      rw [List.all_eq_true]
      intro c hc
      exact ccMem_notAt.mpr (hb c hc)
    have heq : A ++ '@' :: (B ++ '.' :: C)
        = A ++ (['@'] ++ (B ++ (['.'] ++ (C ++ ([] : List Char))))) := by simp
    rw [heq]
    refine ItemsMatch.cons _ _ A _ ?_ ?_ (hnotAt A hA) ?_
    · show 1 ≤ A.length
      exact List.length_pos.mpr hA0
    · rfl
    refine ItemsMatch.cons _ _ ['@'] _ ?_ ?_ ?_ ?_
    · show 1 ≤ ([ '@' ] : List Char).length
      simp
    · show hiOk (some 1) ([ '@' ] : List Char).length = true
      simp [hiOk]
    · show ([ '@' ] : List Char).all (ccMem (litCC '@')) = true
      simpa using ccMem_lit.mpr rfl
    refine ItemsMatch.cons _ _ B _ ?_ ?_ (hnotAt B hB) ?_
    · show 1 ≤ B.length
      exact List.length_pos.mpr hB0
    · rfl
    refine ItemsMatch.cons _ _ ['.'] _ ?_ ?_ ?_ ?_
    · show 1 ≤ (['.'] : List Char).length
      simp
    · show hiOk (some 1) (['.'] : List Char).length = true
      simp [hiOk]
    · show (['.'] : List Char).all (ccMem (litCC '.')) = true
      simpa using ccMem_lit.mpr rfl
    refine ItemsMatch.cons _ _ C [] ?_ ?_ (hnotAt C hC) ItemsMatch.nil
    · show 1 ≤ C.length
      exact List.length_pos.mpr hC0
    · rfl

theorem emailShape_count {cs : List Char} (h : EmailShape cs) : cs.count '@' = 1 := by
  obtain ⟨A, B, C, -, -, -, hA, hB, hC, rfl⟩ := h
  have cA : A.count '@' = 0 := List.count_eq_zero.mpr (fun hm => hA '@' hm rfl)
  have cB : B.count '@' = 0 := List.count_eq_zero.mpr (fun hm => hB '@' hm rfl)
  have cC : C.count '@' = 0 := List.count_eq_zero.mpr (fun hm => hC '@' hm rfl)
  simp [List.count_append, List.count_cons, cA, cB, cC]

/-- **C5 counterexample.** `re.match` only anchors at the start, so
`"a@b.c@d"` — which does not have the `local@domain.tld` full-string shape
(it contains two `@`) — is nevertheless accepted. -/
theorem c5_counterexample :
    is_valid_email "a@b.c@d" = true ∧ ¬ EmailShape (pyStrip "a@b.c@d").data := by
  constructor
  · decide
  · intro h
    have h1 := emailShape_count h
    have h2 : ((pyStrip "a@b.c@d").data).count '@' = 2 := by decide
    omega

/-- **C5 (amended).** `is_valid_email` accepts exactly the strings some
prefix of whose trimmed form has the `local@domain.tld` shape (the
pattern is only anchored at the start); in particular every full-shape
string such as `user@domain.tld` is accepted. -/
theorem c5_email_validator :
    (∀ s : String, is_valid_email s = true ↔
        ∃ p q, (pyStrip s).data = p ++ q ∧ EmailShape p)
    ∧ is_valid_email "user@domain.tld" = true := by
  refine ⟨?_, by decide⟩
  intro s
  unfold is_valid_email
  rw [matchAtStart_iff]
  constructor
  · rintro ⟨p, q, hpq, hm⟩
    exact ⟨p, q, hpq, (itemsMatch_email_iff p).mp hm⟩
  · rintro ⟨p, q, hpq, hm⟩
    exact ⟨p, q, hpq, (itemsMatch_email_iff p).mpr hm⟩

/-! ## Claim C1: the duplicate checker -/

theorem stripAnchors_wrap (e : String) :
    stripAnchors ("^" ++ e ++ "$").data = some e.data := by
  have hdata : ("^" ++ e ++ "$").data = '^' :: (e.data ++ ['$']) := by
    have h1 : ("^" ++ e ++ "$").data = ("^" ++ e).data ++ "$".data := String.data_append _ _
    have h2 : ("^" ++ e).data = "^".data ++ e.data := String.data_append _ _
    rw [h1, h2]
    simp
  rw [hdata]
  have hne : e.data ++ ['$'] ≠ [] := by simp
  have hlast : (e.data ++ ['$']).getLast hne = '$' :=
    List.getLast_append_singleton e.data
  simp only [stripAnchors, dif_neg hne]
  rw [if_pos hlast]
  rw [List.dropLast_concat]

theorem parseItemsAux_litList (cs : List Char) :
    ∀ fuel : Nat, (∀ c ∈ cs, pcreMeta.contains c = false) →
      cs.length ≤ fuel → parseItemsAux fuel cs = some (cs.map litItem) := by
  induction cs with
  | nil =>
    intro fuel _ _
    cases fuel <;> rfl
  | cons c rest ih =>
    intro fuel hmeta hlen
    cases fuel with
    | zero => simp at hlen
    | succ f =>
      have hc := hmeta c (by simp)
      have hdot : ¬ (c = '.') := fun h => by subst h; exact absurd hc (by decide)
      have hbs : ¬ (c = '\\') := fun h => by subst h; exact absurd hc (by decide)
      have hlb : ¬ (c = '[') := fun h => by subst h; exact absurd hc (by decide)
      have hatom : parseAtom (c :: rest) = some (litCC c, rest) := by
        simp only [parseAtom]
        rw [if_neg hdot, if_neg hbs, if_neg hlb, hc]
        simp
      have hquant : parseQuant rest = some (1, some 1, rest) := by
        cases rest with
        | nil => rfl
        | cons c2 r2 =>
          have hc2 := hmeta c2 (by simp)
          have h1 : ¬ (c2 = '?') := fun h => by subst h; exact absurd hc2 (by decide)
          have h2 : ¬ (c2 = '*') := fun h => by subst h; exact absurd hc2 (by decide)
          have h3 : ¬ (c2 = '+') := fun h => by subst h; exact absurd hc2 (by decide)
          have h4 : ¬ (c2 = '{') := fun h => by subst h; exact absurd hc2 (by decide)
          simp only [parseQuant]
          rw [if_neg h1, if_neg h2, if_neg h3, if_neg h4]
      have hrest : parseItemsAux f rest = some (rest.map litItem) := by
        apply ih f (fun d hd => hmeta d (by simp [hd]))
        simp at hlen
        omega
      simp only [parseItemsAux, hatom, hquant, hrest, Option.bind_eq_bind,
        Option.some_bind, List.map_cons]
      rfl

theorem parseLinear_litList {cs : List Char}
    (h : ∀ c ∈ cs, pcreMeta.contains c = false) :
    parseLinear cs = some (cs.map litItem) :=
  parseItemsAux_litList cs cs.length h le_rfl

theorem matchItems_litList_CI (e : List Char) (t : List Char) :
    matchItems ccMemCI (e.map litItem) t = true ↔ t.map Char.toLower = e.map Char.toLower := by
  induction e generalizing t with
  | nil =>
    simp [matchItems, List.isEmpty_iff]
  | cons c e ih =>
    rw [List.map_cons, matchItems_iff]
    constructor
    · intro h
      cases h with
      | cons it its b rest hlo hhi hall htail =>
        have hblo : 1 ≤ b.length := hlo
        have hbhi : b.length ≤ 1 := by
          have h2 : hiOk (some 1) b.length = true := hhi
          simpa [hiOk] using h2
        obtain ⟨x, hx⟩ := List.length_eq_one.mp (by omega : b.length = 1)
        subst hx
        have hcx : c.toLower = x.toLower := by
          have h2 : ([x] : List Char).all (ccMemCI (litCC c)) = true := hall
          simp [ccMemCI, litCC] at h2
          exact h2
        have htail2 : rest.map Char.toLower = e.map Char.toLower :=
          (ih rest).mp ((matchItems_iff _ _ _).mpr htail)
        simp [htail2, hcx.symm]
    · intro h
      cases t with
      | nil => simp at h
      | cons x rest =>
        simp only [List.map_cons, List.cons.injEq] at h
        have hsplit : (x :: rest) = [x] ++ rest := rfl
        rw [hsplit]
        refine ItemsMatch.cons _ _ [x] rest ?_ ?_ ?_ ?_
        · show 1 ≤ ([x] : List Char).length
          simp
        · show hiOk (some 1) ([x] : List Char).length = true
          simp [hiOk]
        · show ([x] : List Char).all (ccMemCI (litCC c)) = true
          simp [ccMemCI, litCC, h.1]
        · exact (matchItems_iff _ _ _).mp ((ih rest).mpr h.2)

/-- Matching the Mongo pattern built from a metacharacter-free email is
case-insensitive string equality. -/
theorem mongoRegexMatchCI_eqCI {e : String} (he : metaFree e = true) (t : String) :
    mongoRegexMatchCI ("^" ++ e ++ "$") t = true
      ↔ t.data.map Char.toLower = e.data.map Char.toLower := by
  have hmeta : ∀ c ∈ e.data, pcreMeta.contains c = false := by
    intro c hc
    have := List.all_eq_true.mp he c hc
    simpa using this
  have h1 : mongoRegexMatchCI ("^" ++ e ++ "$") t
      = matchItems ccMemCI (e.data.map litItem) t.data := by
    unfold mongoRegexMatchCI
    rw [stripAnchors_wrap]
    show (match parseLinear e.data with
      | none => false
      | some items => matchItems ccMemCI items t.data) = _
    rw [parseLinear_litList hmeta]
  rw [h1]
  exact matchItems_litList_CI e.data t.data

/-- **C1 counterexample.** The email is interpolated into the `$regex`
pattern, so metacharacters in the query are interpreted: the query
`a.b@x.com` matches the stored email `azb@x.com` (`.` matches any
character) although the two emails are not equal case-insensitively and
the phone numbers differ. -/
theorem c1_counterexample :
    user_already_exists [⟨[("Email", "azb@x.com"), ("Phone Number", "123")], [], 0⟩]
        "a.b@x.com" "999" = true
    ∧ "azb@x.com".data.map Char.toLower ≠ "a.b@x.com".data.map Char.toLower
    ∧ ("123" : String) ≠ "999" :=
  ⟨by decide, by decide, by decide⟩

/-- **C1 (amended).** For an email query free of regex metacharacters and
any phone query, `user_already_exists` reports a match exactly when some
stored record has an email equal to the query under case-insensitive
comparison or a phone equal to the query (a record without the field never
matches it); a query with an arbitrary email is interpreted as a
case-insensitive anchored regular expression (counterexample).  A blank
email query therefore matches only records whose stored email is blank:
against records with non-blank emails, a query with blank email reports a
match exactly when some record's phone equals the phone query. -/
theorem c1_duplicate_checker :
    (∀ (db : List CandidateRecord) (e p : String), metaFree e = true →
      (user_already_exists db e p = true ↔
        ∃ r ∈ db,
          (∃ em, dictGet r.basic_info "Email" = some em
             ∧ em.data.map Char.toLower = e.data.map Char.toLower)
          ∨ dictGet r.basic_info "Phone Number" = some p))
    ∧ (∀ (db : List CandidateRecord) (p : String),
        (∀ r ∈ db, ∀ em, dictGet r.basic_info "Email" = some em → em ≠ "") →
        (user_already_exists db "" p = true ↔
          ∃ r ∈ db, dictGet r.basic_info "Phone Number" = some p)) := by
  have main : ∀ (db : List CandidateRecord) (e p : String), metaFree e = true →
      (user_already_exists db e p = true ↔
        ∃ r ∈ db,
          (∃ em, dictGet r.basic_info "Email" = some em
             ∧ em.data.map Char.toLower = e.data.map Char.toLower)
          ∨ dictGet r.basic_info "Phone Number" = some p) := by
    intro db e p he
    unfold user_already_exists
    rw [List.any_eq_true]
    refine exists_congr fun r => and_congr_right fun _ => ?_
    rw [Bool.or_eq_true]
    refine or_congr ?_ ?_
    · cases hdg : dictGet r.basic_info "Email" with
      | none =>
          simp [hdg]
      | some em =>
          simp only [hdg, Option.some_inj]
          rw [mongoRegexMatchCI_eqCI he]
          constructor
          · intro h
            exact ⟨em, rfl, h⟩
          · rintro ⟨em2, heq, h⟩
            cases heq
            exact h
    · cases hdg : dictGet r.basic_info "Phone Number" with
      | none => simp [hdg]
      | some v =>
          simp only [hdg, Option.some_inj, beq_iff_eq]
  constructor
  · exact main
  · intro db p hne
    rw [main db "" p (by decide)]
    refine exists_congr fun r => and_congr_right fun hr => ?_
    constructor
    · rintro (⟨em, hem, hmap⟩ | h)
      · exfalso
        apply hne r hr em hem
        have hd : em.data = [] := by simpa using hmap
        cases em with
        | mk d =>
          have hd2 : d = [] := hd
          subst hd2
          rfl
      · exact h
    · intro h
      exact Or.inr h

theorem c1_duplicate_checker_witness :
    user_already_exists [⟨[("Email", "abc@xcom"), ("Phone Number", "123")], [], 0⟩]
        "ABC@xcom" "999" = true := by
  rw [c1_duplicate_checker.1 _ "ABC@xcom" "999" (by decide)]
  refine ⟨⟨[("Email", "abc@xcom"), ("Phone Number", "123")], [], 0⟩, by simp,
    Or.inl ⟨"abc@xcom", by decide, by decide⟩⟩

/-! ## Claim C9: final submit -/

/-- **C9.** On the final submit the duplicate checker is re-run with the
session's email and phone; on a duplicate nothing is written and the
session is unchanged (still in the summary, so resubmission is possible);
otherwise exactly one candidate record
`{basic_info, technical_answers, score_percent}` is appended, and never
more than one record is written. -/
theorem c9_final_submit :
    ∀ (db : List CandidateRecord) (s : Session),
      (user_already_exists db (dictGetD s.answers "Email" "")
          (dictGetD s.answers "Phone Number" "") = true →
        submitFinal db s = (db, s, Outcome.rejected))
      ∧ (user_already_exists db (dictGetD s.answers "Email" "")
          (dictGetD s.answers "Phone Number" "") = false →
        submitFinal db s =
          (db ++ [⟨s.answers, s.tech_answers, calculate_score s.tech_answers⟩],
           s, Outcome.saved))
      ∧ (submitFinal db s).1.length ≤ db.length + 1
      ∧ ((submitFinal db s).2.2 = Outcome.saved →
          (submitFinal db s).1.length = db.length + 1) := by
  intro db s
  by_cases h : user_already_exists db (dictGetD s.answers "Email" "")
      (dictGetD s.answers "Phone Number" "") = true
  · refine ⟨fun _ => ?_, fun hf => ?_, ?_, ?_⟩
    · simp [submitFinal, h]
    · rw [h] at hf
      cases hf
    · simp [submitFinal, h]
    · simp [submitFinal, h]
  · have hf : user_already_exists db (dictGetD s.answers "Email" "")
        (dictGetD s.answers "Phone Number" "") = false := by
      simpa using h
    refine ⟨fun ht => ?_, fun _ => ?_, ?_, ?_⟩
    · rw [ht] at hf
      cases hf
    · simp [submitFinal, h, save_to_mongo]
    · simp [submitFinal, h, save_to_mongo]
    · simp [submitFinal, h, save_to_mongo]

theorem c9_final_submit_witness :
    submitFinal [] initSession =
      ([] ++ [⟨initSession.answers, initSession.tech_answers,
          calculate_score initSession.tech_answers⟩], initSession, Outcome.saved) :=
  (c9_final_submit [] initSession).2.1 (by decide)

/-! ## Claim C8: the field-collection states -/

/-- **C8 counterexample.** A submission can pass its validator and still
not be stored: with a record already holding the same email, a valid email
submission halts the session (duplicate check), leaving the step and the
stored values unchanged — so "every valid submission stores the trimmed
value and advances" fails as stated. -/
theorem c8_counterexample :
    is_valid_email "a@x.com" = true
    ∧ submitField dupDb emailStepSession "a@x.com" = (emailStepSession, Outcome.stopped) :=
  ⟨by decide, rfl⟩

/-- **C8 (amended).** In the field-collection states, a submission that
fails validation (empty input or validator false) warns and leaves the
session unchanged; a valid Email/Phone submission that hits the duplicate
check halts with the session unchanged; a valid submission that passes the
duplicate check stores the trimmed value for the current field and
advances the step by exactly one.  Consequently a fresh session with the
seven valid, non-duplicate demo values visits steps 0–7 in order, passes
the Generating state (step 7) exactly once, and reaches the Asking state
(step 8) with question index 0. -/
theorem c8_field_collection :
    (∀ (db : List CandidateRecord) (s : Session) (raw : String),
        s.step < form_fields.length →
        (pyStrip raw = "" ∨ validatorFor (form_fields.getD s.step "") (pyStrip raw) = false) →
        submitField db s raw = (s, Outcome.warned))
    ∧ (∀ (db : List CandidateRecord) (s : Session) (raw : String),
        s.step < form_fields.length →
        pyStrip raw ≠ "" →
        validatorFor (form_fields.getD s.step "") (pyStrip raw) = true →
        dupGate db s (pyStrip raw) = true →
        submitField db s raw = (s, Outcome.stopped))
    ∧ (∀ (db : List CandidateRecord) (s : Session) (raw : String),
        s.step < form_fields.length →
        pyStrip raw ≠ "" →
        validatorFor (form_fields.getD s.step "") (pyStrip raw) = true →
        dupGate db s (pyStrip raw) = false →
        submitField db s raw =
          ({ s with answers := dictSet s.answers (form_fields.getD s.step "") (pyStrip raw),
                    step := s.step + 1 }, Outcome.advanced))
    ∧ (runForm [] initSession demoInputs).step = form_fields.length
    ∧ (formTrace [] initSession demoInputs).map Session.step = [0, 1, 2, 3, 4, 5, 6, 7]
    ∧ ((formTrace [] initSession demoInputs).filter
        (fun t => t.step == form_fields.length)).length = 1
    ∧ (generateStep (runForm [] initSession demoInputs) demoQuestions).2 = Outcome.advanced
    ∧ (generateStep (runForm [] initSession demoInputs) demoQuestions).1.step
        = form_fields.length + 1
    ∧ (generateStep (runForm [] initSession demoInputs) demoQuestions).1.question_index = 0 := by
  have hsteps : ∀ s : Session, s.step < form_fields.length →
      s.step = 0 ∨ s.step = 1 ∨ s.step = 2 ∨ s.step = 3 ∨ s.step = 4 ∨ s.step = 5
      ∨ s.step = 6 := by
    intro s h
    simp [form_fields] at h
    omega
  refine ⟨?_, ?_, ?_, by decide, by decide, by decide, by decide, by decide, by decide⟩
  · intro db s raw hstep hbad
    rcases hbad with hb | hb
    · simp [submitField, hb]
    · by_cases hempty : pyStrip raw = ""
      · simp [submitField, hempty]
      · unfold validatorFor at hb
        unfold submitField
        rcases hsteps s hstep with h | h | h | h | h | h | h <;>
          rw [h] at hb ⊢ <;>
          simp_all [form_fields]
  · intro db s raw hstep hne hval hdup
    unfold validatorFor at hval
    unfold dupGate at hdup
    unfold submitField
    rcases hsteps s hstep with h | h | h | h | h | h | h <;>
      rw [h] at hval hdup ⊢ <;>
      simp_all [form_fields]
  · intro db s raw hstep hne hval hdup
    unfold validatorFor at hval
    unfold dupGate at hdup
    unfold submitField
    rcases hsteps s hstep with h | h | h | h | h | h | h <;>
      rw [h] at hval hdup ⊢ <;>
      simp_all [form_fields]

theorem c8_field_collection_witness :
    submitField [] initSession "John Doe"
      = ({ initSession with
            answers := dictSet initSession.answers (form_fields.getD initSession.step "")
              (pyStrip "John Doe"),
            step := initSession.step + 1 }, Outcome.advanced) :=
  c8_field_collection.2.2.1 [] initSession "John Doe" (by decide) (by decide) (by decide)
    (by decide)

/-! ## Claim C10: the answering loop -/

/-- **C10.** Invariants of the answering loop: at every reachable state the
number of accumulated answer records equals the question index, the index
never exceeds the question count, and every record carries the technology
and question of the question it answers with a non-empty trimmed answer;
an empty answer warns and changes nothing, a non-empty answer appends
exactly one record and advances the index, and the loop exits to the
summary exactly when the index reaches the question count (immediately
when the list is empty). -/
theorem c10_answer_loop :
    (∀ s : Session, ReachAnswering s →
        s.tech_answers.length = s.question_index
        ∧ s.question_index ≤ s.questions.length
        ∧ RecordsAligned s)
    ∧ (∀ (s : Session) (raw fb : String),
        s.question_index < s.questions.length → pyStrip raw = "" →
        answerStep s raw fb = (s, Outcome.warned))
    ∧ (∀ (s : Session) (raw fb : String),
        s.question_index < s.questions.length → pyStrip raw ≠ "" →
        (answerStep s raw fb).1.tech_answers
            = s.tech_answers ++ [⟨(s.questions.getD s.question_index dummyQuestion).1,
                (s.questions.getD s.question_index dummyQuestion).2, pyStrip raw, fb⟩]
        ∧ (answerStep s raw fb).1.question_index = s.question_index + 1
        ∧ (answerStep s raw fb).1.step = s.step
        ∧ (answerStep s raw fb).1.questions = s.questions)
    ∧ (∀ (s : Session) (raw fb : String),
        ¬ s.question_index < s.questions.length →
        answerStep s raw fb = ({ s with step := s.step + 1 }, Outcome.advanced)) := by
  have hwarn : ∀ (s : Session) (raw fb : String),
      s.question_index < s.questions.length → pyStrip raw = "" →
      answerStep s raw fb = (s, Outcome.warned) := by
    intro s raw fb hq ha
    simp [answerStep, hq, ha]
  have happend : ∀ (s : Session) (raw fb : String),
      s.question_index < s.questions.length → pyStrip raw ≠ "" →
      (answerStep s raw fb).1
        = { s with
            tech_answers := s.tech_answers
              ++ [⟨(s.questions.getD s.question_index dummyQuestion).1,
                  (s.questions.getD s.question_index dummyQuestion).2, pyStrip raw, fb⟩],
            feedbacks := s.feedbacks ++ [fb],
            question_index := s.question_index + 1 } := by
    intro s raw fb hq ha
    simp [answerStep, hq, ha, dummyQuestion]
  have hexit : ∀ (s : Session) (raw fb : String),
      ¬ s.question_index < s.questions.length →
      answerStep s raw fb = ({ s with step := s.step + 1 }, Outcome.advanced) := by
    intro s raw fb hq
    simp [answerStep, hq]
  refine ⟨?_, hwarn, ?_, hexit⟩
  · intro s h
    induction h with
    | base s h8 h0 hnil =>
        refine ⟨by rw [h0, hnil]; rfl, by rw [h0]; exact Nat.zero_le _, ?_⟩
        intro i hi
        rw [hnil] at hi
        simp at hi
    | step s raw fb hreach h8 ih =>
        obtain ⟨ihlen, ihle, ihal⟩ := ih
        by_cases hq : s.question_index < s.questions.length
        · by_cases ha : pyStrip raw = ""
          · rw [hwarn s raw fb hq ha]
            exact ⟨ihlen, ihle, ihal⟩
          · rw [happend s raw fb hq ha]
            set rc : TechAnswer := ⟨(s.questions.getD s.question_index dummyQuestion).1,
                (s.questions.getD s.question_index dummyQuestion).2, pyStrip raw, fb⟩
              with hrc
            refine ⟨by simp [ihlen], by simp; omega, ?_⟩
            intro i hi
            dsimp only at hi ⊢
            simp only [List.length_append, List.length_cons, List.length_nil] at hi
            by_cases hilt : i < s.tech_answers.length
            · rw [List.getD_append _ _ _ _ hilt]
              exact ihal i hilt
            · have hieq : i = s.tech_answers.length := by omega
              subst hieq
              rw [List.getD_append_right _ _ _ _ le_rfl]
              simp only [Nat.sub_self, List.getD_cons_zero]
              rw [ihlen]
              exact ⟨rfl, rfl, ha, pyStrip_idem raw⟩
        · rw [hexit s raw fb hq]
          exact ⟨ihlen, ihle, ihal⟩
  · intro s raw fb hq ha
    rw [happend s raw fb hq ha]
    exact ⟨rfl, rfl, rfl, rfl⟩

theorem c10_answer_loop_witness :
    c10Session.tech_answers.length = c10Session.question_index
    ∧ c10Session.question_index ≤ c10Session.questions.length
    ∧ RecordsAligned c10Session :=
  c10_answer_loop.1 c10Session (ReachAnswering.base c10Session rfl rfl rfl)

end SkillMatch
